import Mathlib

/-!
Verification of the SSD detection head (`mmdet/models/anchor_heads/ssd_head.py`).

The Python code is shallowly embedded over exact rationals (`ℚ` stands for the
Python floats, whose rounding is not at issue in any claim) and `ℤ`/`ℕ` for the
Python ints.  Python's `int(x)` conversion (truncation toward zero) is `pyInt`,
Python's `range` builtin is `pyRange`, and Python's `list.insert` is `pyInsert`.
Transcendental scalars that the code obtains from torch (`exp`, per-anchor
cross-entropy values) enter the embedding as explicit parameters, since every
claim under study is independent of their numeric values.
-/

namespace SSDSpec

/-- Python `int(q)` on a real scalar: truncation toward zero.  `Rat.floor` is
used directly (rather than the `⌊·⌋` notation) so the definition evaluates. -/
def pyInt (q : ℚ) : ℤ := if 0 ≤ q then Rat.floor q else -(Rat.floor (-q))

/-- Python `range(a, stop, step)` for a nonzero step (the code under study
guards the zero-step case itself, where Python raises `ValueError`). -/
def pyRange (a stop step : ℤ) : List ℤ :=
  if step = 0 then []
  else if 0 < step then
    if stop ≤ a then []
    else (List.range (((stop - a - 1) / step).toNat + 1)).map (fun (k : ℕ) => a + step * (k : ℤ))
  else
    if a ≤ stop then []
    else (List.range (((a - stop - 1) / (-step)).toNat + 1)).map (fun (k : ℕ) => a + step * (k : ℤ))

/-- Python `list.insert(i, a)`: insert at position `i`, clamping past the end. -/
def pyInsert {α : Type} : ℕ → α → List α → List α
  | 0, a, l => a :: l
  | _ + 1, a, [] => [a]
  | n + 1, a, x :: l => x :: pyInsert n a l

/-! ## Anchor geometry (`SSDHead.__init__`, ratio-derivation path)

`ssd_head.py` lines 96–108 derive per-level `min_sizes`/`max_sizes` from
`basesize_ratio_range` and `input_size`; lines 109–127 build the per-level
base anchors and reorder them with `torch.index_select`.
-/

/-- Source line 99 and following: `step = int(np.floor(max_ratio - min_ratio) /
(len(in_channels) - 2))`, where `min_ratio`/`max_ratio` are already the integer
percentages `int(minR * 100)` / `int(maxR * 100)` (`np.floor` of the integer
difference is the identity). -/
def derivedStep (minR maxR : ℚ) (L : ℕ) : ℤ :=
  pyInt (((pyInt (maxR * 100) - pyInt (minR * 100) : ℤ) : ℚ) / ((L : ℚ) - 2))

/-- Source line 103: the percentages visited by
`for r in range(int(min_ratio), int(max_ratio) + 1, step)`. -/
def derivedRs (minR maxR : ℚ) (L : ℕ) : List ℤ :=
  pyRange (pyInt (minR * 100)) (pyInt (maxR * 100) + 1) (derivedStep minR maxR L)

/-- Source lines 96–107: the `(min_sizes, max_sizes)` pair built on the
ratio-derivation path.  `I` is `input_size`, `minR`/`maxR` the
`basesize_ratio_range` endpoints, `L` is `len(in_channels)`.  `none` models the
two fatal cases: `L = 2` makes the step computation divide by zero (NumPy
yields `inf` and `int(inf)` raises `OverflowError`), and a computed `step = 0`
makes `range` raise `ValueError`.  The level-0 entry prepended by lines 106–107
uses the raw fractional `basesize_ratio_range[0]`, not the integer
percentage. -/
def deriveSizes (I minR maxR : ℚ) (L : ℕ) : Option (List ℤ × List ℤ) :=
  if L = 2 then none
  else if derivedStep minR maxR L = 0 then none
  else
    some (pyInt (I * minR / 2) ::
            (derivedRs minR maxR L).map (fun (r : ℤ) => pyInt (I * (r : ℚ) / 100)),
          pyInt (I * minR) ::
            (derivedRs minR maxR L).map
              (fun (r : ℤ) => pyInt (I * ((r : ℚ) + (derivedStep minR maxR L : ℚ)) / 100)))

/-- The `min_sizes` list the construction produces (first component of
`deriveSizes` when it succeeds). -/
def derivedMins (I minR maxR : ℚ) (L : ℕ) : List ℤ :=
  ((deriveSizes I minR maxR L).getD ([], [])).1

/-- The `max_sizes` list the construction produces (second component of
`deriveSizes` when it succeeds). -/
def derivedMaxs (I minR maxR : ℚ) (L : ℕ) : List ℤ :=
  ((deriveSizes I minR maxR L).getD ([], [])).2

/-- Modelled from the spec: `AnchorGenerator` (imported from `mmdet.core`,
whose code is not under `src/`) with `scale_major=False` produces the
`(scale × ratio)` cross product of base anchors with the ratio index varying
fastest (spec §4.2).  A base anchor is abstracted to its `(scale, ratio)`
pair, which is all the ordering claims speak about. -/
def crossProduct (scales ratList : List ℚ) : List (ℚ × ℚ) :=
  scales.flatMap (fun s => ratList.map (fun r => (s, r)))

/-- Source lines 117–119: `ratios = [1.]` then `ratios += [1/r, r]` for each
configured anchor ratio of the level. -/
def ssdRatList (anchorRs : List ℚ) : List ℚ :=
  1 :: anchorRs.flatMap (fun r => [1 / r, r])

/-- Source lines 122–124: `indices = list(range(len(ratios)))` followed by
`indices.insert(1, len(indices))`. -/
def ssdIndices (L : ℕ) : List ℕ :=
  pyInsert 1 L (List.range L)

/-- Source lines 110–127: the reordered per-level base anchors on the
ratio-derivation path.  The generator is constructed with
`scales = [1., sqrt(max_size/min_size)]` (the second, irrational scale is the
abstract parameter `s1`) and the ratio list of `ssdRatList`; line 125 then
applies `torch.index_select` with `ssdIndices` to its base anchors. -/
def ssdBaseAnchors (s1 : ℚ) (anchorRs : List ℚ) : List (ℚ × ℚ) :=
  let ratList := ssdRatList anchorRs
  let p := crossProduct [1, s1] ratList
  (ssdIndices ratList.length).map (fun i => p.getD i (0, 0))

/-- Moving a sequence's last element to index 1, leaving the rest in place:
the operation the spec describes as the SSD anchor-ordering fix-up. -/
def moveLastToSecond {α : Type} : List α → List α
  | [] => []
  | x :: xs =>
    match xs.getLast? with
    | none => [x]
    | some y => x :: y :: xs.dropLast

/-! ## Explicit width/height mode (`SSDHead.__init__`, lines 36–38 and 82–94)

On the explicit path the constructor asserts `len(anchor_heights) ==
len(anchor_widths)` (lines 37 and 83), then loops `k` over
`range(len(anchor_strides))` asserting — with the stale index `i`, left at
`len(in_channels) - 1` by the preceding convolution loop — that
`len(anchor_widths[i]) == len(anchor_heights[i])` (line 84), and indexes
`anchor_widths[k]`/`anchor_heights[k]` for the generator.
-/

/-- Whether construction on the explicit path runs to completion: every
`assert` passes and every list index is in bounds.  `n` is
`len(in_channels)` (so the stale `i` is `n - 1`), `m` is
`len(anchor_strides)`, `hts`/`wds` are `anchor_heights`/`anchor_widths`. -/
def explicitConstructOk (n m : ℕ) (hts wds : List (List ℚ)) : Bool :=
  decide (hts.length = wds.length) &&
  (List.range m).all (fun k =>
    decide (n - 1 < wds.length) && decide (n - 1 < hts.length) &&
    decide ((wds.getD (n - 1) []).length = (hts.getD (n - 1) []).length) &&
    decide (k < wds.length) && decide (k < hts.length))

/-! ## Per-image loss (`SSDHead.loss_single`, lines 154–176)

Per-anchor cross-entropy values (`F.cross_entropy(cls_score, labels,
reduction='none')`) are transcendental reals computed by torch; they enter
the embedding as the explicit list `ce`, and the code's
`loss_cls_all = ce * label_weights` and everything after it is embedded
exactly.  Labels are naturals (`0` = background).  The code's three
`assert` statements become `none`.
-/

/-- Source line 156: `loss_cls_all = F.cross_entropy(...) * label_weights`. -/
def lossClsAll (ce lw : List ℚ) : List ℚ :=
  List.zipWith (· * ·) ce lw

/-- Source line 158: `pos_inds = (labels > 0).nonzero().view(-1)`. -/
def posInds (labels : List ℕ) : List ℕ :=
  (List.range labels.length).filter (fun i => decide (0 < labels.getD i 0))

/-- Source line 159: `neg_inds = (labels == 0).nonzero().view(-1)`. -/
def negInds (labels : List ℕ) : List ℕ :=
  (List.range labels.length).filter (fun i => decide (labels.getD i 0 = 0))

/-- Source lines 161–164: `num_neg_samples = cfg.neg_pos_ratio *
num_pos_samples`, capped at `neg_inds.size(0)`.  `npr` is
`cfg.neg_pos_ratio`. -/
def numNegSamples (npr : ℕ) (labels : List ℕ) : ℕ :=
  let n0 := npr * (posInds labels).length
  if n0 > (negInds labels).length then (negInds labels).length else n0

/-- Source line 165: the values returned by
`loss_cls_all[neg_inds].topk(num_neg_samples)` — the `num_neg_samples`
largest weighted losses among the negatives (torch returns them in
descending order; ties are broken deterministically but unspecifiedly,
here by the stable descending insertion sort). -/
def topkNegLosses (ce lw : List ℚ) (labels : List ℕ) (npr : ℕ) : List ℚ :=
  (((negInds labels).map (fun i => (lossClsAll ce lw).getD i 0)).insertionSort
      (· ≥ ·)).take (numNegSamples npr labels)

/-- Modelled from the spec: `smooth_l1_loss` is imported from `..losses`,
whose code is not under `src/`.  Spec §4.4, numeric policy: quadratic below
the transition point `beta`, linear above; elementwise weighted; the sum is
normalized by `avg_factor`. -/
def smoothL1Term (beta x : ℚ) : ℚ :=
  if |x| < beta then (1 / 2) * x * x / beta else |x| - (1 / 2) * beta

/-- Modelled from the spec: the weighted, normalized smooth-L1 regression
loss `smooth_l1_loss(pred, target, weight, beta, avg_factor)` of §4.4. -/
def smoothL1Loss (pred target weight : List ℚ) (beta avgFactor : ℚ) : ℚ :=
  (List.zipWith (· * ·) (List.zipWith (fun p t => smoothL1Term beta (p - t)) pred target)
      weight).sum / avgFactor

/-- Source lines 154–176, `SSDHead.loss_single` for one image: `none` when one
of the three `assert` statements at lines 166–168 fires.  Returns the pair
`(loss_cls, loss_bbox)`. -/
def lossSingle (ce lw : List ℚ) (labels : List ℕ) (bboxPred bboxTargets bboxWeights : List ℚ)
    (npr : ℕ) (beta numTotalSamples : ℚ) : Option (ℚ × ℚ) :=
  if (posInds labels).length = 0 then none
  else if numNegSamples npr labels = 0 then none
  else if ¬ (0 < numTotalSamples) then none
  else
    let lossClsPos := ((posInds labels).map (fun i => (lossClsAll ce lw).getD i 0)).sum
    let lossClsNeg := (topkNegLosses ce lw labels npr).sum
    some ((lossClsPos + lossClsNeg) / numTotalSamples,
          smoothL1Loss bboxPred bboxTargets bboxWeights beta numTotalSamples)

/-! ## Batch loss (`SSDHead.loss`, lines 178–252)

The anchor/target assignment (`get_anchors`, `anchor_target`) is the external
Assigner; the embedding starts from its per-image outputs.  Lines 231–234
assert `torch.isfinite(...).all()` on the concatenated classification scores
and box predictions before `multi_apply(self.loss_single, ...)` runs.
-/

/-- A torch scalar as the finiteness check sees it: a finite value (an exact
rational standing for the float) or one of the non-finite values. -/
inductive FVal : Type
  | fin (q : ℚ)
  | nan
  | inf
  | ninf
deriving DecidableEq

/-- Whether `torch.isfinite` holds of the scalar. -/
def FVal.isFinite : FVal → Bool
  | .fin _ => true
  | _ => false

/-- The numeric value of a scalar, once known finite. -/
def FVal.toRat : FVal → ℚ
  | .fin q => q
  | _ => 0

/-- How a batch loss computation fails fatally: one of the two finiteness
assertions at lines 231–234, or an assertion inside `loss_single`. -/
inductive LossFailure : Type
  | nonFiniteCls
  | nonFiniteBbox
  | lossSingleAssert
deriving DecidableEq

/-- The per-image inputs of the batch loss, as produced by the forward pass
and the external Assigner: raw flattened predictions (checked for
finiteness), the per-anchor cross-entropy values for those predictions, and
the assigned labels/weights/targets. -/
structure ImageData : Type where
  clsScore : List FVal
  bboxPred : List FVal
  ce : List ℚ
  labels : List ℕ
  labelWeights : List ℚ
  bboxTargets : List ℚ
  bboxWeights : List ℚ
deriving DecidableEq

/-- Whether every aggregated classification score is finite
(line 231: `torch.isfinite(all_cls_scores).all()`). -/
def allClsFinite (imgs : List ImageData) : Bool :=
  imgs.all (fun im => im.clsScore.all FVal.isFinite)

/-- Whether every aggregated box prediction is finite
(line 233: `torch.isfinite(all_bbox_preds).all()`). -/
def allBboxFinite (imgs : List ImageData) : Bool :=
  imgs.all (fun im => im.bboxPred.all FVal.isFinite)

/-- Source lines 229–246 of `SSDHead.loss`: the two finiteness assertions on
the concatenated predictions, in source order, then `multi_apply` of
`loss_single` over the images.  `numTotalPos` is the Assigner's positive
count, passed as `num_total_samples`. -/
def lossBatch (imgs : List ImageData) (npr : ℕ) (beta numTotalPos : ℚ) :
    Except LossFailure (List (ℚ × ℚ)) :=
  if ¬ allClsFinite imgs then .error .nonFiniteCls
  else if ¬ allBboxFinite imgs then .error .nonFiniteBbox
  else
    match imgs.mapM (fun im =>
        lossSingle im.ce im.labelWeights im.labels (im.bboxPred.map FVal.toRat)
          im.bboxTargets im.bboxWeights npr beta numTotalPos) with
    | some ls => .ok ls
    | none => .error .lossSingleAssert

/-! ## Loss balancing (`SSDHead.loss` lines 248–250, `_balance_losses` 254–263)

`self.loss_weights` are the two learned scalars `w_cls, w_reg`;
`torch.exp(-w)` is transcendental, so the value `exp(-w)` enters as the
explicit parameter `e0`/`e1` alongside `w0`/`w1` (the claims hold for every
interpretation of `exp`; at the initialization `w = 0` the factor is
`exp(0) = 1`).  Each per-image loss is a scalar, so `_loss.mean()` is the
identity and `sum(_loss.mean() for _loss in losses)` is the plain sum.
-/

/-- Source lines 254–263, `SSDHead._balance_losses`: both balanced scalars. -/
def balanceLosses (w0 e0 w1 e1 : ℚ) (lossesCls lossesReg : List ℚ) : ℚ × ℚ :=
  (e0 * lossesCls.sum + (1 / 2) * w0, e1 * lossesReg.sum + (1 / 2) * w1)

/-- Source lines 248–252: what `SSDHead.loss` finally returns.  With
`loss_balancing` the code rebinds `losses_cls` to the balanced classification
scalar but assigns the balanced regression scalar to the fresh name
`losses_reg`, and the returned dict still carries the original per-image
list `losses_bbox`.  `Sum.inl` holds a per-image list, `Sum.inr` a balanced
scalar. -/
def lossOutputs (balancing : Bool) (w0 e0 w1 e1 : ℚ) (lossesCls lossesBbox : List ℚ) :
    (List ℚ ⊕ ℚ) × (List ℚ ⊕ ℚ) :=
  if balancing then
    (Sum.inr (balanceLosses w0 e0 w1 e1 lossesCls lossesBbox).1, Sum.inl lossesBbox)
  else
    (Sum.inl lossesCls, Sum.inl lossesBbox)

/-! ## General lemmas about the embedding's helpers -/

theorem ratFloor_eq_intFloor (q : ℚ) : Rat.floor q = ⌊q⌋ := by
  rw [Rat.floor_def, Rat.floor_def']

theorem pyInt_eq_floor {q : ℚ} (h : 0 ≤ q) : pyInt q = ⌊q⌋ := by
  rw [pyInt, if_pos h, ratFloor_eq_intFloor]

theorem pyInt_mono {p q : ℚ} (hp : 0 ≤ p) (h : p ≤ q) : pyInt p ≤ pyInt q := by
  rw [pyInt_eq_floor hp, pyInt_eq_floor (hp.trans h)]
  exact Int.floor_le_floor h

theorem one_le_of_one_le_pyInt {q : ℚ} (h : 1 ≤ pyInt q) : 1 ≤ q := by
  rcases le_or_lt 0 q with hq | hq
  · rw [pyInt_eq_floor hq] at h
    exact_mod_cast (Int.le_floor.mp h)
  · exfalso
    rw [pyInt, if_neg (not_le.mpr hq)] at h
    have : (0 : ℤ) ≤ Rat.floor (-q) := by
      rw [ratFloor_eq_intFloor]
      exact Int.floor_nonneg.mpr (by linarith)
    omega

theorem pyRange_pos_eq (a b step : ℤ) (hab : a ≤ b) (hstep : 1 ≤ step) :
    pyRange a (b + 1) step =
      (List.range (((b - a) / step).toNat + 1)).map (fun (k : ℕ) => a + step * (k : ℤ)) := by
  rw [pyRange, if_neg (by omega), if_pos (by omega), if_neg (by omega)]
  rw [show b + 1 - a - 1 = b - a by ring]

theorem getD_map_range {α : Type} (f : ℕ → α) {k n : ℕ} (h : k < n) (d : α) :
    ((List.range n).map f).getD k d = f k := by
  rw [List.getD_eq_getElem _ _ (by simpa using h)]
  simp

theorem mem_map_range {α : Type} (f : ℕ → α) (n : ℕ) (x : α) :
    x ∈ (List.range n).map f ↔ ∃ k, k < n ∧ x = f k := by
  simp only [List.mem_map, List.mem_range]
  exact ⟨fun ⟨k, hk, he⟩ => ⟨k, hk, he.symm⟩, fun ⟨k, hk, he⟩ => ⟨k, hk, he.symm⟩⟩

theorem lt_count_iff_le_bound (a b step : ℤ) (k : ℕ) (hab : a ≤ b) (hstep : 1 ≤ step) :
    k < ((b - a) / step).toNat + 1 ↔ a + step * (k : ℤ) ≤ b := by
  have hq : 0 ≤ (b - a) / step := Int.ediv_nonneg (by omega) (by omega)
  rw [Nat.lt_succ_iff]
  rw [Int.le_toNat hq, Int.le_ediv_iff_mul_le (by omega : (0 : ℤ) < step)]
  constructor <;> intro h <;> nlinarith [mul_comm (k : ℤ) step]

theorem map_getD_range {α : Type} (l : List α) (d : α) :
    (List.range l.length).map (fun i => l.getD i d) = l := by
  induction l with
  | nil => rfl
  | cons x t ih =>
    rw [List.length_cons, List.range_succ_eq_map, List.map_cons, List.map_map]
    simpa [Function.comp_def] using ih

/-! ## Lemmas about the anchor reorder (claim C2) -/

theorem crossProduct_pair (a b : ℚ) (l : List ℚ) :
    crossProduct [a, b] l = l.map (fun r => (a, r)) ++ l.map (fun r => (b, r)) := by
  simp [crossProduct]

theorem ssdIndices_succ (n : ℕ) :
    ssdIndices (n + 1) = 0 :: (n + 1) :: (List.range n).map Nat.succ := by
  rw [ssdIndices, List.range_succ_eq_map]
  rfl

theorem flatMap_pair_length (R : List ℚ) :
    (R.flatMap (fun r => [1 / r, r])).length = 2 * R.length := by
  induction R with
  | nil => rfl
  | cons x t ih =>
    rw [List.flatMap_cons, List.length_append, ih, List.length_cons]
    simp
    ring

theorem ssdBaseAnchors_eq (s1 : ℚ) (R : List ℚ) :
    ssdBaseAnchors s1 R =
      (1, 1) :: (s1, 1) ::
        (R.flatMap (fun r => [1 / r, r])).map (fun r => ((1 : ℚ), r)) := by
  set t := R.flatMap (fun r => [1 / r, r]) with ht
  have hlen : (ssdRatList R).length = t.length + 1 := by
    simp [ssdRatList, ht]
  rw [ssdBaseAnchors]
  simp only [hlen]
  rw [ssdIndices_succ, crossProduct_pair]
  have hrat : ssdRatList R = 1 :: t := by simp [ssdRatList, ht]
  rw [hrat]
  simp only [List.map_cons, List.map_map]
  have h1 : ((1, 1) :: (List.map (fun r => ((1 : ℚ), r)) t ++
      (s1, 1) :: List.map (fun r => (s1, r)) t)).getD (t.length + 1) (0, 0) = (s1, 1) := by
    rw [List.getD_cons_succ, List.getD_append_right _ _ _ _ (by simp)]
    simp
  have h2 : List.map
      ((fun i => ((1, 1) :: (List.map (fun r => ((1 : ℚ), r)) t ++
          (s1, 1) :: List.map (fun r => (s1, r)) t)).getD i (0, 0)) ∘ Nat.succ)
      (List.range t.length) = List.map (fun r => ((1 : ℚ), r)) t := by
    have hc : ∀ i ∈ List.range t.length,
        (((1, 1) :: (List.map (fun r => ((1 : ℚ), r)) t ++
            (s1, 1) :: List.map (fun r => (s1, r)) t)).getD (Nat.succ i) (0, 0)) =
          (List.map (fun r => ((1 : ℚ), r)) t).getD i (0, 0) := by
      intro i hi
      rw [List.getD_cons_succ, List.getD_append]
      simpa using List.mem_range.mp hi
    calc List.map _ (List.range t.length)
        = List.map (fun i => (List.map (fun r => ((1 : ℚ), r)) t).getD i (0, 0))
            (List.range t.length) := List.map_congr_left hc
      _ = List.map (fun r => ((1 : ℚ), r)) t := by
          have := map_getD_range (List.map (fun r => ((1 : ℚ), r)) t) ((0 : ℚ), (0 : ℚ))
          simpa using this
  exact congrArg₂ List.cons rfl (congrArg₂ List.cons h1 h2)

theorem crossProduct_take (s1 : ℚ) (R : List ℚ) :
    (crossProduct [1, s1] (ssdRatList R)).take ((ssdRatList R).length + 1) =
      (ssdRatList R).map (fun r => ((1 : ℚ), r)) ++ [(s1, 1)] := by
  rw [crossProduct_pair, List.take_append_eq_append_take]
  rw [List.take_of_length_le (by simp)]
  congr 1
  rw [List.length_map, Nat.add_sub_cancel_left]
  rw [ssdRatList, List.map_cons, List.take_succ_cons, List.take_zero]

theorem moveLastToSecond_cons_concat {α : Type} (x a : α) (l : List α) :
    moveLastToSecond (x :: (l ++ [a])) = x :: a :: l := by
  rw [moveLastToSecond, List.getLast?_concat, List.dropLast_concat]

/-- Claim C2: on the ratio-derivation path (scales `[1, s1]`, ratio list
starting with `1.0`), the reordered per-level base-anchor sequence is exactly
the natural generation-order sequence of the kept anchors (the first
`len(ratios) + 1` entries of the `(scale × ratio)` cross product, whose last
entry is the `(s1, ratio 1.0)` anchor) with that last entry moved to index 1;
the base anchor at index 1 has ratio `1.0` and carries the second scale `s1`,
and the sequence has length `2 * len(anchor_ratios) + 2`. -/
theorem anchor_reorder_extra_scale_to_second (s1 : ℚ) (R : List ℚ) :
    ssdBaseAnchors s1 R =
      moveLastToSecond
        ((crossProduct [1, s1] (ssdRatList R)).take ((ssdRatList R).length + 1)) ∧
    ((crossProduct [1, s1] (ssdRatList R)).take ((ssdRatList R).length + 1)).getLast? =
      some (s1, 1) ∧
    (ssdBaseAnchors s1 R).getD 1 (0, 0) = (s1, 1) ∧
    (ssdBaseAnchors s1 R).length = 2 * R.length + 2 := by
  have hk := crossProduct_take s1 R
  have hb := ssdBaseAnchors_eq s1 R
  refine ⟨?_, ?_, ?_, ?_⟩
  · rw [hk, hb, ssdRatList, List.map_cons]
    rw [show ((1 : ℚ), (1 : ℚ)) :: List.map (fun r => ((1 : ℚ), r))
          (R.flatMap fun r => [1 / r, r]) ++ [(s1, 1)] =
        ((1 : ℚ), (1 : ℚ)) :: (List.map (fun r => ((1 : ℚ), r))
          (R.flatMap fun r => [1 / r, r]) ++ [(s1, 1)]) from rfl]
    rw [moveLastToSecond_cons_concat]
  · rw [hk, List.getLast?_concat]
  · rw [hb]; rfl
  · rw [hb, List.length_cons, List.length_cons, List.length_map, flatMap_pair_length]

/-! ## Loss balancing (claim C1) -/

/-- Claim C1 counterexample: with both learned scalars at their
initialization `w = 0` (where `exp(-w) = 1`) and two images with per-image
classification losses `[1, 3]` and regression losses `[2, 4]`, the code
returns classification term `1 * (1 + 3) + 0 = 4` — the exponentially
weighted *sum*, not the claimed `exp(-w)*mean + w/2 = 2` — and returns the
raw per-image regression list unchanged instead of any balanced regression
scalar. -/
theorem balance_sum_not_mean_cex :
    lossOutputs true 0 1 0 1 [1, 3] [2, 4] = (Sum.inr 4, Sum.inl [2, 4]) ∧
    (4 : ℚ) ≠ 1 * ((1 + 3) / 2) + (1 / 2) * 0 ∧
    (Sum.inl [2, 4] : List ℚ ⊕ ℚ) ≠ Sum.inr (1 * ((2 + 4) / 2) + (1 / 2) * 0) := by
  refine ⟨by with_unfolding_all rfl, by with_unfolding_all decide, ?_⟩
  intro h
  exact Sum.inl_ne_inr h

/-- Claim C1 amended: with loss balancing enabled, the returned
classification term is `exp(-w_cls) * S_cls + 0.5 * w_cls` where `S_cls` is
the *sum* of the per-image classification losses (each per-image tensor's
mean; `e0` stands for the transcendental factor `exp(-w0)`), while the
returned regression entry is the raw per-image loss list: the balanced
regression scalar `exp(-w_reg) * S_reg + 0.5 * w_reg` is computed by
`_balance_losses` but discarded by `loss`. -/
theorem balance_outputs_amended (w0 e0 w1 e1 : ℚ) (cls bbox : List ℚ) :
    lossOutputs true w0 e0 w1 e1 cls bbox =
      (Sum.inr (e0 * cls.sum + (1 / 2) * w0), Sum.inl bbox) ∧
    (balanceLosses w0 e0 w1 e1 cls bbox).2 = e1 * bbox.sum + (1 / 2) * w1 :=
  ⟨rfl, rfl⟩

/-! ## Hard negative mining and per-image loss (claims C3, C4, C10) -/

theorem numNegSamples_eq_min (npr : ℕ) (labels : List ℕ) :
    numNegSamples npr labels =
      min (npr * (posInds labels).length) (negInds labels).length := by
  rw [numNegSamples]
  split
  · omega
  · omega

/-- Claim C3: for every input with positive anchors present and negatives
present (and shape-consistent per-anchor loss/weight lists), the number of
mined negatives equals `min(neg_pos_ratio * num_pos, count(negatives))`, and
the mined values are a top-k of the weighted per-anchor cross-entropy losses
of the negatives: the negative losses split (as a multiset) into the mined
part and a rest, with every mined loss at least every remaining one. -/
theorem hard_negative_mining_topk (ce lw : List ℚ) (labels : List ℕ) (npr : ℕ)
    (_hce : ce.length = labels.length) (_hlw : lw.length = labels.length)
    (_hpos : 0 < (posInds labels).length) (_hneg : 0 < (negInds labels).length) :
    (topkNegLosses ce lw labels npr).length =
      min (npr * (posInds labels).length) (negInds labels).length ∧
    ∃ rest,
      ((negInds labels).map (fun i => (lossClsAll ce lw).getD i 0)).Perm
        (topkNegLosses ce lw labels npr ++ rest) ∧
      ∀ x ∈ topkNegLosses ce lw labels npr, ∀ y ∈ rest, y ≤ x := by
  have hsortlen :
      (((negInds labels).map (fun i => (lossClsAll ce lw).getD i 0)).insertionSort
          (· ≥ ·)).length = (negInds labels).length := by
    rw [(List.perm_insertionSort (· ≥ ·) _).length_eq, List.length_map]
  constructor
  · rw [topkNegLosses, List.length_take, hsortlen, numNegSamples_eq_min]
    omega
  · refine ⟨(((negInds labels).map (fun i => (lossClsAll ce lw).getD i 0)).insertionSort
        (· ≥ ·)).drop (numNegSamples npr labels), ?_, ?_⟩
    · rw [topkNegLosses, List.take_append_drop]
      exact (List.perm_insertionSort (· ≥ ·) _).symm
    · have hs := List.sorted_insertionSort (· ≥ ·)
        ((negInds labels).map (fun i => (lossClsAll ce lw).getD i 0))
      rw [List.Sorted, ← List.take_append_drop (numNegSamples npr labels)
        (((negInds labels).map (fun i => (lossClsAll ce lw).getD i 0)).insertionSort
          (· ≥ ·)), List.pairwise_append] at hs
      exact fun x hx y hy => hs.2.2 x hx y hy

/-- Claim C3 witness: at `labels = [1, 0, 0, 0]`, losses `[5, 3, 7, 1]`, unit
weights and `neg_pos_ratio = 2`, exactly `min(2 * 1, 3) = 2` negatives are
mined and they dominate the unmined negative losses. -/
theorem hard_negative_mining_topk_witness :
    (topkNegLosses [5, 3, 7, 1] [1, 1, 1, 1] [1, 0, 0, 0] 2).length =
      min (2 * (posInds [1, 0, 0, 0]).length) (negInds [1, 0, 0, 0]).length ∧
    ∃ rest,
      ((negInds [1, 0, 0, 0]).map
          (fun i => (lossClsAll [5, 3, 7, 1] [1, 1, 1, 1]).getD i 0)).Perm
        (topkNegLosses [5, 3, 7, 1] [1, 1, 1, 1] [1, 0, 0, 0] 2 ++ rest) ∧
      ∀ x ∈ topkNegLosses [5, 3, 7, 1] [1, 1, 1, 1] [1, 0, 0, 0] 2, ∀ y ∈ rest, y ≤ x :=
  hard_negative_mining_topk [5, 3, 7, 1] [1, 1, 1, 1] [1, 0, 0, 0] 2 rfl rfl
    (by decide) (by decide)

/-- Claim C4: when the three assertion preconditions hold (positives exist,
the mined-negative count is positive, `num_total_samples > 0`), the per-image
loss returns classification term `(sum of positive-anchor losses + sum of
mined hard-negative losses) / num_total_samples`, exactly. -/
theorem loss_single_cls_normalization (ce lw : List ℚ) (labels : List ℕ)
    (bp bt bw : List ℚ) (npr : ℕ) (beta nts : ℚ)
    (hpos : 0 < (posInds labels).length)
    (hneg : 0 < numNegSamples npr labels) (hnts : 0 < nts) :
    lossSingle ce lw labels bp bt bw npr beta nts =
      some ((((posInds labels).map (fun i => (lossClsAll ce lw).getD i 0)).sum +
              (topkNegLosses ce lw labels npr).sum) / nts,
            smoothL1Loss bp bt bw beta nts) := by
  rw [lossSingle, if_neg (by omega), if_neg (by omega), if_neg (not_not_intro hnts)]

/-- Claim C4 witness: the toy image with per-anchor losses `[5, 3, 7, 1]`,
one positive, three negatives, `neg_pos_ratio = 2` and
`num_total_samples = 10` yields `(5 + (7 + 3)) / 10`. -/
theorem loss_single_cls_normalization_witness :
    lossSingle [5, 3, 7, 1] [1, 1, 1, 1] [1, 0, 0, 0] [] [] [] 2 1 10 =
      some ((((posInds [1, 0, 0, 0]).map
            (fun i => (lossClsAll [5, 3, 7, 1] [1, 1, 1, 1]).getD i 0)).sum +
          (topkNegLosses [5, 3, 7, 1] [1, 1, 1, 1] [1, 0, 0, 0] 2).sum) / 10,
        smoothL1Loss [] [] [] 1 10) :=
  loss_single_cls_normalization [5, 3, 7, 1] [1, 1, 1, 1] [1, 0, 0, 0] [] [] [] 2 1 10
    (by decide) (by decide) (by norm_num)

/-- Claim C10: the per-image loss requires all three assertion preconditions
simultaneously: with no background-labelled anchor (so the mined-negative
count is zero) it fails even when positives exist; with
`num_total_samples = 0` it fails; and a value is returned only if
`num_pos > 0`, the mined-negative count is positive and
`num_total_samples > 0` all hold. -/
theorem loss_single_preconditions :
    (∀ (ce lw : List ℚ) (labels : List ℕ) (bp bt bw : List ℚ) (npr : ℕ) (beta nts : ℚ),
      (∀ l ∈ labels, l ≠ 0) →
      lossSingle ce lw labels bp bt bw npr beta nts = none) ∧
    (∀ (ce lw : List ℚ) (labels : List ℕ) (bp bt bw : List ℚ) (npr : ℕ) (beta : ℚ),
      lossSingle ce lw labels bp bt bw npr beta 0 = none) ∧
    (∀ (ce lw : List ℚ) (labels : List ℕ) (bp bt bw : List ℚ) (npr : ℕ) (beta nts : ℚ)
      (r : ℚ × ℚ), lossSingle ce lw labels bp bt bw npr beta nts = some r →
      0 < (posInds labels).length ∧ 0 < numNegSamples npr labels ∧ 0 < nts) := by
  refine ⟨?_, ?_, ?_⟩
  · intro ce lw labels bp bt bw npr beta nts hnz
    have hnegnil : negInds labels = [] := by
      rw [negInds, List.filter_eq_nil_iff]
      intro i hi
      have hlt := List.mem_range.mp hi
      rw [List.getD_eq_getElem _ _ hlt]
      simpa using hnz _ (List.getElem_mem hlt)
    have hzero : numNegSamples npr labels = 0 := by
      rw [numNegSamples_eq_min, hnegnil]
      simp
    rw [lossSingle]
    by_cases h1 : (posInds labels).length = 0
    · rw [if_pos h1]
    · rw [if_neg h1, if_pos hzero]
  · intro ce lw labels bp bt bw npr beta
    rw [lossSingle]
    by_cases h1 : (posInds labels).length = 0
    · rw [if_pos h1]
    · rw [if_neg h1]
      by_cases h2 : numNegSamples npr labels = 0
      · rw [if_pos h2]
      · rw [if_neg h2, if_pos (by norm_num)]
  · intro ce lw labels bp bt bw npr beta nts r h
    rw [lossSingle] at h
    by_cases h1 : (posInds labels).length = 0
    · rw [if_pos h1] at h; exact absurd h (by simp)
    · rw [if_neg h1] at h
      by_cases h2 : numNegSamples npr labels = 0
      · rw [if_pos h2] at h; exact absurd h (by simp)
      · rw [if_neg h2] at h
        by_cases h3 : ¬ (0 < nts)
        · rw [if_pos h3] at h; exact absurd h (by simp)
        · exact ⟨Nat.pos_of_ne_zero h1, Nat.pos_of_ne_zero h2, not_not.mp h3⟩

/-- Claim C10 witness: an image whose anchors are all positive (`[1, 2]`)
fails the per-image loss, and an image with a positive and a negative but
`num_total_samples = 0` fails it too. -/
theorem loss_single_preconditions_witness :
    lossSingle [1, 1] [1, 1] [1, 2] [] [] [] 3 1 1 = none ∧
    lossSingle [1, 1] [1, 1] [1, 0] [] [] [] 3 1 0 = none :=
  ⟨loss_single_preconditions.1 [1, 1] [1, 1] [1, 2] [] [] [] 3 1 1 (by decide),
   loss_single_preconditions.2.1 [1, 1] [1, 1] [1, 0] [] [] [] 3 1⟩

/-! ## Batch finiteness guard (claim C8) -/

/-- Claim C8 amended: the batch loss fails with one of the two non-finiteness
errors precisely when the aggregated classification scores or box
predictions contain a non-finite value, and that guard precedes any
per-image loss (whenever a non-finite value is present the result is the
guard's error, never a per-image one); the computation can however also fail
fatally for other reasons, so non-finiteness is not the only fatal
failure. -/
theorem finiteness_guard_iff (imgs : List ImageData) (npr : ℕ) (beta numTotalPos : ℚ) :
    (lossBatch imgs npr beta numTotalPos = .error .nonFiniteCls ∨
      lossBatch imgs npr beta numTotalPos = .error .nonFiniteBbox) ↔
    ¬ (allClsFinite imgs ∧ allBboxFinite imgs) := by
  rw [lossBatch]
  by_cases h1 : allClsFinite imgs
  · rw [if_neg (by simpa using h1)]
    by_cases h2 : allBboxFinite imgs
    · rw [if_neg (by simpa using h2)]
      constructor
      · rintro (h | h) <;>
          exact absurd h (by cases hm : imgs.mapM (fun im =>
            lossSingle im.ce im.labelWeights im.labels (im.bboxPred.map FVal.toRat)
              im.bboxTargets im.bboxWeights npr beta numTotalPos) <;> simp [hm])
      · intro h
        exact absurd ⟨h1, h2⟩ h
    · rw [if_pos (by simpa using h2)]
      exact ⟨fun _ => by simp [h2], fun _ => Or.inr rfl⟩
  · rw [if_pos (by simpa using h1)]
    exact ⟨fun _ => by simp [h1], fun _ => Or.inl rfl⟩

/-- Claim C8 counterexample: a batch whose predictions are all finite still
fails fatally (one image has no negative anchor, so a `loss_single`
assertion fires), refuting the claimed "fails fatally if and only if some
aggregated value is non-finite". -/
theorem finiteness_only_guard_cex :
    lossBatch [⟨[.fin 0], [.fin 0, .fin 0, .fin 0, .fin 0], [1], [1], [1],
        [0, 0, 0, 0], [0, 0, 0, 0]⟩] 3 1 1 = .error .lossSingleAssert ∧
    allClsFinite [⟨[.fin 0], [.fin 0, .fin 0, .fin 0, .fin 0], [1], [1], [1],
        [0, 0, 0, 0], [0, 0, 0, 0]⟩] = true ∧
    allBboxFinite [⟨[.fin 0], [.fin 0, .fin 0, .fin 0, .fin 0], [1], [1], [1],
        [0, 0, 0, 0], [0, 0, 0, 0]⟩] = true := by
  refine ⟨by with_unfolding_all rfl, rfl, rfl⟩

/-! ## Explicit-mode construction checks (claim C9) -/

/-- Claim C9: the stale-index bug at line 84 (`anchor_widths[i]` with `i`
left over from the convolution loop instead of the loop variable `k`): a
configuration with matching outer lengths whose level-0 width list (1 entry)
mismatches its level-0 height list (2 entries) passes every construction
check, because only the last level is ever compared. -/
theorem explicit_mode_stale_index_check :
    explicitConstructOk 2 2 [[1, 2], [3]] [[1], [3]] = true ∧
    ¬ (∀ k, k < 2 →
        (([[(1 : ℚ)], [3]] : List (List ℚ)).getD k []).length =
          (([[(1 : ℚ), 2], [3]] : List (List ℚ)).getD k []).length) := by
  constructor
  · with_unfolding_all rfl
  · intro h
    have := h 0 (by decide)
    simp at this

/-! ## Size derivation (claims C5, C6, C7) -/

theorem minPct_lt_maxPct (minR maxR : ℚ) (L : ℕ) (hL : 3 ≤ L)
    (hstep : 1 ≤ derivedStep minR maxR L) :
    pyInt (minR * 100) + 1 ≤ pyInt (maxR * 100) := by
  have h1 : (1 : ℚ) ≤ ((pyInt (maxR * 100) - pyInt (minR * 100) : ℤ) : ℚ) / ((L : ℚ) - 2) :=
    one_le_of_one_le_pyInt hstep
  have hden : (1 : ℚ) ≤ (L : ℚ) - 2 := by
    have : (3 : ℚ) ≤ (L : ℚ) := by exact_mod_cast hL
    linarith
  have h2 := (le_div_iff₀ (by linarith : (0 : ℚ) < (L : ℚ) - 2)).mp h1
  have h3 : (1 : ℚ) ≤ ((pyInt (maxR * 100) - pyInt (minR * 100) : ℤ) : ℚ) := by linarith
  have h4 : (1 : ℤ) ≤ pyInt (maxR * 100) - pyInt (minR * 100) := by exact_mod_cast h3
  omega

theorem derivedRs_eq (minR maxR : ℚ) (L : ℕ) (hL : 3 ≤ L)
    (hstep : 1 ≤ derivedStep minR maxR L) :
    derivedRs minR maxR L =
      (List.range (((pyInt (maxR * 100) - pyInt (minR * 100)) /
          derivedStep minR maxR L).toNat + 1)).map
        (fun (k : ℕ) => pyInt (minR * 100) + derivedStep minR maxR L * (k : ℤ)) := by
  have hab : pyInt (minR * 100) ≤ pyInt (maxR * 100) := by
    have := minPct_lt_maxPct minR maxR L hL hstep
    omega
  rw [derivedRs, pyRange_pos_eq _ _ _ hab hstep]

theorem derivedRs_nonneg (minR maxR : ℚ) (L : ℕ) (hL : 3 ≤ L) (hminR : 0 ≤ minR)
    (hstep : 1 ≤ derivedStep minR maxR L) :
    ∀ r ∈ derivedRs minR maxR L, 0 ≤ r := by
  intro r hr
  rw [derivedRs_eq minR maxR L hL hstep, mem_map_range] at hr
  obtain ⟨k, -, rfl⟩ := hr
  have ha : (0 : ℤ) ≤ pyInt (minR * 100) := by
    rw [pyInt_eq_floor (by positivity)]
    exact Int.floor_nonneg.mpr (by positivity)
  nlinarith [Int.ofNat_zero_le k]

/-- Claim C5 amended: on the ratio-derivation path with at least 3 levels, a
nonnegative input size and lower ratio, and a positive derived step, the
construction succeeds and emits per walked percentage `r` the *floored*
sizes `min_size = floor(input_size * r / 100)` and
`max_size = floor(input_size * (r + step) / 100)`, prepending the level-0
entry `floor(input_size * min_ratio / 2)` / `floor(input_size * min_ratio)`;
the walked percentages are exactly the arithmetic progression starting at
the integer percentage of `min_ratio` with increment `step`, capped at the
integer percentage of `max_ratio` inclusive (the endpoint itself is visited
only when the progression lands on it). -/
theorem size_derivation_floored (I minR maxR : ℚ) (L : ℕ) (hL : 3 ≤ L) (hI : 0 ≤ I)
    (hminR : 0 ≤ minR) (hstep : 1 ≤ derivedStep minR maxR L) :
    deriveSizes I minR maxR L =
      some (⌊I * minR / 2⌋ ::
              (derivedRs minR maxR L).map (fun (r : ℤ) => ⌊I * (r : ℚ) / 100⌋),
            ⌊I * minR⌋ ::
              (derivedRs minR maxR L).map
                (fun (r : ℤ) => ⌊I * ((r : ℚ) + (derivedStep minR maxR L : ℚ)) / 100⌋)) ∧
    (∀ x : ℤ, x ∈ derivedRs minR maxR L ↔
      ∃ k : ℕ, x = pyInt (minR * 100) + derivedStep minR maxR L * (k : ℤ) ∧
        x ≤ pyInt (maxR * 100)) ∧
    (derivedRs minR maxR L).head? = some (pyInt (minR * 100)) ∧
    List.Chain' (fun p q => q = p + derivedStep minR maxR L) (derivedRs minR maxR L) := by
  have hab : pyInt (minR * 100) ≤ pyInt (maxR * 100) := by
    have := minPct_lt_maxPct minR maxR L hL hstep
    omega
  refine ⟨?_, ?_, ?_, ?_⟩
  · rw [deriveSizes, if_neg (by omega), if_neg (by omega)]
    have h1 : pyInt (I * minR / 2) = ⌊I * minR / 2⌋ := pyInt_eq_floor (by positivity)
    have h2 : pyInt (I * minR) = ⌊I * minR⌋ := pyInt_eq_floor (by positivity)
    have h3 : (derivedRs minR maxR L).map (fun (r : ℤ) => pyInt (I * (r : ℚ) / 100)) =
        (derivedRs minR maxR L).map (fun (r : ℤ) => ⌊I * (r : ℚ) / 100⌋) := by
      refine List.map_congr_left ?_
      intro r hr
      have h0 : (0 : ℚ) ≤ (r : ℚ) := by
        exact_mod_cast derivedRs_nonneg minR maxR L hL hminR hstep r hr
      exact pyInt_eq_floor (by positivity)
    have h4 : (derivedRs minR maxR L).map
          (fun (r : ℤ) => pyInt (I * ((r : ℚ) + (derivedStep minR maxR L : ℚ)) / 100)) =
        (derivedRs minR maxR L).map
          (fun (r : ℤ) => ⌊I * ((r : ℚ) + (derivedStep minR maxR L : ℚ)) / 100⌋) := by
      refine List.map_congr_left ?_
      intro r hr
      have h0 : (0 : ℚ) ≤ (r : ℚ) := by
        exact_mod_cast derivedRs_nonneg minR maxR L hL hminR hstep r hr
      have hs : (0 : ℚ) ≤ (derivedStep minR maxR L : ℚ) := by
        exact_mod_cast (by omega : (0 : ℤ) ≤ derivedStep minR maxR L)
      exact pyInt_eq_floor (by positivity)
    rw [h1, h2, h3, h4]
  · intro x
    rw [derivedRs_eq minR maxR L hL hstep, mem_map_range]
    constructor
    · rintro ⟨k, hk, rfl⟩
      exact ⟨k, rfl, (lt_count_iff_le_bound _ _ _ _ hab hstep).mp hk⟩
    · rintro ⟨k, rfl, hle⟩
      exact ⟨k, (lt_count_iff_le_bound _ _ _ _ hab hstep).mpr hle, rfl⟩
  · rw [derivedRs_eq minR maxR L hL hstep, List.range_succ_eq_map, List.map_cons,
      List.head?_cons]
    norm_num
  · rw [derivedRs_eq minR maxR L hL hstep, List.chain'_map]
    rw [show ((pyInt (maxR * 100) - pyInt (minR * 100)) / derivedStep minR maxR L).toNat + 1 =
        Nat.succ ((pyInt (maxR * 100) - pyInt (minR * 100)) /
          derivedStep minR maxR L).toNat from rfl, List.chain'_range_succ]
    intro m _
    push_cast
    ring

/-- Claim C5 counterexample: at `input_size = 512`,
`basesize_ratio_range = (0.15, 0.9)`, 7 levels, the first walked percentage
is 15 and the code emits `min_size = int(512 * 15 / 100) = 76`, not the
claimed unfloored `512 * 15 / 100 = 76.8`; and at
`basesize_ratio_range = (0.2, 0.22)` with 7 levels (so `step = 0` despite
`num_levels >= 3` and `min_ratio < max_ratio`) the derivation raises instead
of walking at all. -/
theorem size_derivation_unfloored_cex :
    (deriveSizes 512 (3 / 20) (9 / 10) 7).map (fun p => p.1.getD 1 0) = some 76 ∧
    ¬ ((76 : ℚ) = 512 * 15 / 100) ∧
    deriveSizes 300 (1 / 5) (11 / 50) 7 = none := by
  refine ⟨by with_unfolding_all rfl, by with_unfolding_all decide, by with_unfolding_all rfl⟩

/-- Claim C5 witness: the SSD300 configuration `input_size = 300`,
`basesize_ratio_range = (0.2, 0.9)`, 7 levels. -/
theorem size_derivation_floored_witness :
    deriveSizes 300 (1 / 5) (9 / 10) 7 =
      some (⌊(300 : ℚ) * (1 / 5) / 2⌋ ::
              (derivedRs (1 / 5) (9 / 10) 7).map (fun (r : ℤ) => ⌊(300 : ℚ) * (r : ℚ) / 100⌋),
            ⌊(300 : ℚ) * (1 / 5)⌋ ::
              (derivedRs (1 / 5) (9 / 10) 7).map
                (fun (r : ℤ) =>
                  ⌊(300 : ℚ) * ((r : ℚ) + (derivedStep (1 / 5) (9 / 10) 7 : ℚ)) / 100⌋)) :=
  (size_derivation_floored 300 (1 / 5) (9 / 10) 7 (by norm_num) (by norm_num) (by norm_num)
    (by with_unfolding_all decide)).1

/-- Claim C6 amended: for every valid configuration (at least 3 levels,
nonnegative input size and lower ratio, positive derived step) the derived
sizes satisfy `min_size[k] <= max_size[k]` at every level, the interior
levels tile exactly (`max_size[k] = min_size[k+1]` for `k >= 1`), and
`max_size` is monotone nondecreasing across levels; the claimed
`max_size[k] <= min_size[k+1]` can fail at the `k = 0` boundary and strict
increase of `max_size` can fail for small input sizes. -/
theorem size_monotonicity_amended (I minR maxR : ℚ) (L : ℕ) (hL : 3 ≤ L) (hI : 0 ≤ I)
    (hminR : 0 ≤ minR) (hstep : 1 ≤ derivedStep minR maxR L) :
    (∀ k, k < (derivedMins I minR maxR L).length →
        (derivedMins I minR maxR L).getD k 0 ≤ (derivedMaxs I minR maxR L).getD k 0) ∧
    (∀ k, 1 ≤ k → k + 1 < (derivedMins I minR maxR L).length →
        (derivedMaxs I minR maxR L).getD k 0 = (derivedMins I minR maxR L).getD (k + 1) 0) ∧
    (∀ k, k + 1 < (derivedMaxs I minR maxR L).length →
        (derivedMaxs I minR maxR L).getD k 0 ≤ (derivedMaxs I minR maxR L).getD (k + 1) 0) := by
  have ha0 : (0 : ℤ) ≤ pyInt (minR * 100) := by
    rw [pyInt_eq_floor (by positivity)]
    exact Int.floor_nonneg.mpr (by positivity)
  set a := pyInt (minR * 100) with hadef
  set s := derivedStep minR maxR L with hsdef
  set n := ((pyInt (maxR * 100) - a) / s).toNat + 1 with hndef
  have hmins : derivedMins I minR maxR L =
      pyInt (I * minR / 2) :: (List.range n).map
        (fun (k : ℕ) => pyInt (I * ((a + s * (k : ℤ) : ℤ) : ℚ) / 100)) := by
    rw [derivedMins, deriveSizes, if_neg (by omega), if_neg (by omega)]
    simp only [Option.getD_some]
    rw [derivedRs_eq minR maxR L hL hstep, List.map_map]
    rfl
  have hmaxs : derivedMaxs I minR maxR L =
      pyInt (I * minR) :: (List.range n).map
        (fun (k : ℕ) =>
          pyInt (I * (((a + s * (k : ℤ) : ℤ) : ℚ) + (s : ℚ)) / 100)) := by
    rw [derivedMaxs, deriveSizes, if_neg (by omega), if_neg (by omega)]
    simp only [Option.getD_some]
    rw [derivedRs_eq minR maxR L hL hstep, List.map_map]
    rfl
  have hlenmins : (derivedMins I minR maxR L).length = n + 1 := by rw [hmins]; simp
  have hlenmaxs : (derivedMaxs I minR maxR L).length = n + 1 := by rw [hmaxs]; simp
  have hxnn : ∀ j : ℕ, (0 : ℚ) ≤ ((a + s * (j : ℤ) : ℤ) : ℚ) := by
    intro j
    have : (0 : ℤ) ≤ a + s * (j : ℤ) := by nlinarith [Int.ofNat_zero_le j]
    exact_mod_cast this
  have hs1 : (1 : ℚ) ≤ (s : ℚ) := by exact_mod_cast hstep
  refine ⟨?_, ?_, ?_⟩
  · intro k hk
    rcases k with _ | j
    · rw [hmins, hmaxs, List.getD_cons_zero, List.getD_cons_zero]
      exact pyInt_mono (by positivity) (half_le_self (by positivity))
    · rw [hlenmins] at hk
      have hj : j < n := by omega
      rw [hmins, hmaxs, List.getD_cons_succ, List.getD_cons_succ,
        getD_map_range _ hj, getD_map_range _ hj]
      refine pyInt_mono (by positivity) ?_
      have hmul := mul_le_mul_of_nonneg_left
        (by linarith [hxnn j] :
          ((a + s * (j : ℤ) : ℤ) : ℚ) ≤ ((a + s * (j : ℤ) : ℤ) : ℚ) + (s : ℚ)) hI
      linarith
  · intro k h1 h2
    rcases k with _ | j
    · omega
    · rw [hlenmins] at h2
      have hj : j < n := by omega
      have hj1 : j + 1 < n := by omega
      rw [hmins, hmaxs, List.getD_cons_succ, List.getD_cons_succ,
        getD_map_range _ hj, getD_map_range _ hj1]
      refine congrArg pyInt ?_
      push_cast
      ring
  · intro k hk
    rw [hlenmaxs] at hk
    rcases k with _ | j
    · have h0 : 0 < n := by omega
      rw [hmaxs, List.getD_cons_zero, List.getD_cons_succ, getD_map_range _ h0]
      refine pyInt_mono (by positivity) ?_
      have hfl : minR * 100 < (a : ℚ) + 1 := by
        rw [hadef, pyInt_eq_floor (by positivity)]
        exact Int.lt_floor_add_one (minR * 100)
      rw [le_div_iff₀ (by norm_num : (0 : ℚ) < 100)]
      have hkey : minR * 100 ≤ (a : ℚ) + (s : ℚ) := by linarith
      have hmul := mul_le_mul_of_nonneg_left hkey hI
      push_cast
      nlinarith
    · have hj : j < n := by omega
      have hj1 : j + 1 < n := by omega
      rw [hmaxs, List.getD_cons_succ, List.getD_cons_succ,
        getD_map_range _ hj, getD_map_range _ hj1]
      refine pyInt_mono ?_ ?_
      · have := hxnn j
        positivity
      · have hle : ((a + s * (j : ℤ) : ℤ) : ℚ) ≤ ((a + s * ((j + 1 : ℕ) : ℤ) : ℤ) : ℚ) := by
          push_cast
          nlinarith
        have hmul := mul_le_mul_of_nonneg_left (by linarith :
          ((a + s * (j : ℤ) : ℤ) : ℚ) + (s : ℚ) ≤
            ((a + s * ((j + 1 : ℕ) : ℤ) : ℤ) : ℚ) + (s : ℚ)) hI
        linarith

/-- Claim C6 counterexample: at `input_size = 300`,
`basesize_ratio_range = (0.125, 0.9)`, 7 levels, the level-0 boundary breaks
`max_size[0] <= min_size[1]` (`max_size[0] = 37 > 36 = min_size[1]`); and at
the valid configuration `input_size = 3`,
`basesize_ratio_range = (0.1, 0.9)`, 7 levels, `max_size` is not strictly
increasing (`max_size[0] = max_size[1] = 0`). -/
theorem size_monotonicity_cex :
    ¬ ((derivedMaxs 300 (1 / 8) (9 / 10) 7).getD 0 0 ≤
        (derivedMins 300 (1 / 8) (9 / 10) 7).getD 1 0) ∧
    ¬ ((derivedMaxs 3 (1 / 10) (9 / 10) 7).getD 0 0 <
        (derivedMaxs 3 (1 / 10) (9 / 10) 7).getD 1 0) := by
  exact ⟨by with_unfolding_all decide, by with_unfolding_all decide⟩

/-- Claim C6 witness: the SSD300 configuration again; index instances of all
three amended conjuncts. -/
theorem size_monotonicity_amended_witness :
    1 ≤ derivedStep (1 / 5) (9 / 10) 7 ∧
    (derivedMins 300 (1 / 5) (9 / 10) 7).getD 0 0 ≤
        (derivedMaxs 300 (1 / 5) (9 / 10) 7).getD 0 0 ∧
    (derivedMaxs 300 (1 / 5) (9 / 10) 7).getD 1 0 =
        (derivedMins 300 (1 / 5) (9 / 10) 7).getD 2 0 ∧
    (derivedMaxs 300 (1 / 5) (9 / 10) 7).getD 0 0 ≤
        (derivedMaxs 300 (1 / 5) (9 / 10) 7).getD 1 0 := by
  have h := size_monotonicity_amended 300 (1 / 5) (9 / 10) 7 (by norm_num) (by norm_num)
    (by norm_num) (by with_unfolding_all decide)
  exact ⟨by with_unfolding_all decide,
    h.1 0 (by with_unfolding_all decide),
    h.2.1 1 le_rfl (by with_unfolding_all decide),
    h.2.2 0 (by with_unfolding_all decide)⟩

/-- Claim C7 counterexample: the 2-level scenario
(`basesize_ratio_range = (0.2, 0.9)`, `input_size = 300`) does not terminate
normally: `len(in_channels) - 2 = 0` makes the step computation divide by
zero, so no size sequence is produced. -/
theorem two_level_derivation_cex : (deriveSizes 300 (1 / 5) (9 / 10) 2).isSome = false := by
  with_unfolding_all rfl

/-- Claim C7 amended: with 2 levels the ratio-derivation path fails at the
step computation (`int(np.floor(max - min) / 0)` raises), producing no
`(min_sizes, max_sizes)` pairs at all; the scenario's configuration would
need the explicit width/height mode or at least 3 levels. -/
theorem two_level_derivation_fails : deriveSizes 300 (1 / 5) (9 / 10) 2 = none := by
  with_unfolding_all rfl

end SSDSpec
